import Mathlib

/-!
Shallow embedding of the three one-shot patch scripts
(`tmp/fix_admin_type.py`, `tmp/fix_query.py`, `tmp/fix_consensus_query.py`).

Each script reads one file, runs `re.sub(pattern, replacement, content,
flags=re.MULTILINE | re.DOTALL)` with a hard-coded pattern and replacement,
writes the result back, and prints one fixed message.

The three regexes use only literal characters (with the escapes
`\{  \}  \|  \?`) separated by `\s*`.  They contain no `.`, `^` or `$`,
so the `MULTILINE | DOTALL` flags do not affect their semantics; `\s`
still matches newlines, which is what makes the patterns span lines.
A pattern is embedded as a list of tokens: literal runs and `\s*` gaps.

Documents are `List Char` (a Python `str`).  `isPySpace` is the set of
characters matched by `\s` for Python 3 `str` patterns (Unicode default).

`matchToksBT` is the Python regex matcher restricted to this token
language: at a `\s*` it greedily tries the longest whitespace run first
and backtracks to shorter runs, exactly as the backtracking engine does.
`matchToks` is a deterministic maximal-munch variant; for the patterns
of this repository (every `\s*` is followed by a literal starting with a
non-whitespace character) the two are proved equal (`matchToksBT_eq`).

`reSub` is `re.sub`: scan left to right, replace each leftmost
non-overlapping match, count replacements; an empty match substitutes
and then advances one character (Python >= 3.7 semantics).  The three
patterns can never match the empty string, so that branch is dead code
for this repository.
-/

/-- Characters matched by Python's `\s` on `str` patterns (Unicode default):
`[ \t\n\r\f\v]`, the file/group/record/unit separators, NEL, NBSP and the
Unicode space characters. -/
def isPySpace (c : Char) : Bool :=
  c = ' ' || c = '\t' || c = '\n' || c = '\x0b' || c = '\x0c' || c = '\r' ||
  c = '\x1c' || c = '\x1d' || c = '\x1e' || c = '\x1f' || c = '\x85' || c = '\xa0' ||
  c = '\u1680' || (0x2000 ≤ c.toNat && c.toNat ≤ 0x200a) || c = '\u2028' ||
  c = '\u2029' || c = '\u202F' || c = '\u205F' || c = '\u3000'

/-- One token of a pattern: a literal character run, or `\s*`. -/
inductive Tok where
  | lit : List Char → Tok
  | ws : Tok
deriving DecidableEq

/-- The Python backtracking matcher for a token-list pattern, anchored at the
start of `s`: a literal must be a prefix, and `\s*` greedily tries the longest
whitespace run first, backtracking to shorter runs (down to the empty run).
Returns the remainder of `s` after the match. -/
def matchToksBT : List Tok → List Char → Option (List Char)
  | [], s => some s
  | Tok.lit l :: ts, s =>
      if l.isPrefixOf s then matchToksBT ts (s.drop l.length) else none
  | Tok.ws :: ts, s =>
      (List.range ((s.takeWhile isPySpace).length + 1)).reverse.findSome?
        (fun k => matchToksBT ts (s.drop k))

/-- Deterministic maximal-munch matcher: `\s*` always consumes the whole
whitespace run, with no backtracking. -/
def matchToks : List Tok → List Char → Option (List Char)
  | [], s => some s
  | Tok.lit l :: ts, s =>
      if l.isPrefixOf s then matchToks ts (s.drop l.length) else none
  | Tok.ws :: ts, s => matchToks ts (s.dropWhile isPySpace)

/-- A pattern is "good" when every `\s*` is immediately followed by a literal
whose first character is not whitespace.  All three scripts' patterns are
good; on good patterns backtracking never helps, so `matchToksBT = matchToks`. -/
def goodPat : List Tok → Bool
  | [] => true
  | Tok.lit _ :: ts => goodPat ts
  | [Tok.ws] => false
  | Tok.ws :: Tok.ws :: _ => false
  | Tok.ws :: Tok.lit [] :: _ => false
  | Tok.ws :: Tok.lit (c :: l) :: ts => !isPySpace c && goodPat (Tok.lit (c :: l) :: ts)

/-- Embedding of `re.sub(pattern, repl, s)` for a token-list pattern: scan left to right,
replace each leftmost non-overlapping match and continue after it, counting
replacements.  An empty match (remainder not shorter) substitutes the
replacement and then advances one character, as Python does; at the end of
the document an empty match appends one final replacement. -/
def reSubGo (p : List Tok) (repl : List Char) : Nat → List Char → List Char × Nat
  | _, [] =>
      (match matchToksBT p [] with
      | some _ => (repl, 1)
      | none => ([], 0))
  | 0, c :: rest => (c :: rest, 0)
  | n + 1, c :: rest =>
      match matchToksBT p (c :: rest) with
      | some rem =>
          if rem.length ≤ rest.length then
            let r := reSubGo p repl n rem
            (repl ++ r.1, r.2 + 1)
          else
            let r := reSubGo p repl n rest
            (repl ++ c :: r.1, r.2 + 1)
      | none =>
          let r := reSubGo p repl n rest
          (c :: r.1, r.2)

/-- Entry point of the `re.sub` embedding: the fuel `s.length` is enough to
scan the whole document (see `reSubGo_fuel`). -/
def reSub (p : List Tok) (repl : List Char) (s : List Char) : List Char × Nat :=
  reSubGo p repl s.length s

/-- Pattern of `fix_admin_type.py`: the regex
`user: \{\s*id: string;\s*name: string \| null;\s*email: string \| null;\s*profile\?:`. -/
def adminPat : List Tok :=
  [Tok.lit ("user: \x7b".data), Tok.ws,
   Tok.lit ("id: string;".data), Tok.ws,
   Tok.lit ("name: string | null;".data), Tok.ws,
   Tok.lit ("email: string | null;".data), Tok.ws,
   Tok.lit ("profile?:".data)]

/-- Replacement text of `fix_admin_type.py` (a Python triple-quoted literal). -/
def adminRepl : List Char :=
  ("user: \x7b\n    id: string;\n    name: string | null;\n    email: string | null;\n    adminNotes: string | null;\n    adminLabels: string[];\n    adminUpdatedAt: Date | null;\n    profile?:").data

/-- Message printed by `fix_admin_type.py`. -/
def adminMsg : List Char := ("Updated ApplicationWithUser type").data

/-- Pattern of `fix_query.py`: the regex
`user: \{\s*include: \{\s*profile: true,\s*\},\s*\},`. -/
def queryPat : List Tok :=
  [Tok.lit ("user: \x7b".data), Tok.ws,
   Tok.lit ("include: \x7b".data), Tok.ws,
   Tok.lit ("profile: true,".data), Tok.ws,
   Tok.lit ("\x7d,".data), Tok.ws,
   Tok.lit ("\x7d,".data)]

/-- Replacement text of `fix_query.py` and `fix_consensus_query.py`
(the two scripts use the same triple-quoted literal). -/
def queryRepl : List Char :=
  ("user: \x7b\n            select: \x7b\n              id: true,\n              name: true,\n              email: true,\n              adminNotes: true,\n              adminLabels: true,\n              adminUpdatedAt: true,\n              profile: true,\n            \x7d,\n          \x7d,").data

/-- Message printed by `fix_query.py`. -/
def queryMsg : List Char := ("Updated user include section").data

/-- Pattern of `fix_consensus_query.py`: the regex
`user: \{\s*select: \{\s*id: true,\s*name: true,\s*email: true,\s*\},\s*\},`. -/
def consensusPat : List Tok :=
  [Tok.lit ("user: \x7b".data), Tok.ws,
   Tok.lit ("select: \x7b".data), Tok.ws,
   Tok.lit ("id: true,".data), Tok.ws,
   Tok.lit ("name: true,".data), Tok.ws,
   Tok.lit ("email: true,".data), Tok.ws,
   Tok.lit ("\x7d,".data), Tok.ws,
   Tok.lit ("\x7d,".data)]

/-- Replacement text of `fix_consensus_query.py` (same as `queryRepl`). -/
def consensusRepl : List Char := queryRepl

/-- Message printed by `fix_consensus_query.py`. -/
def consensusMsg : List Char := ("Updated getConsensusApplications user select").data

example : goodPat adminPat = true := by decide
example : goodPat queryPat = true := by decide
example : goodPat consensusPat = true := by decide

/-! ### A partial-match automaton for the deterministic matcher

`pmatch p u` runs the deterministic matcher on `u` alone and reports whether
it failed inside `u`, succeeded inside `u` (with the unread remainder of `u`),
or consumed all of `u` with a residual pattern still pending.  `mcomp` states
the composition law relating `matchToks p (u ++ v)` to `pmatch p u`. -/

/-- Match a literal against the start of `s`: `inl s'` when the literal is
fully consumed leaving `s'`, `inr l'` when `s` ran out with `l'` of the
literal still pending, `none` on a character mismatch. -/
def stripLit : List Char → List Char → Option (List Char ⊕ List Char)
  | [], s => some (Sum.inl s)
  | c :: l, [] => some (Sum.inr (c :: l))
  | c :: l, d :: s => if c = d then stripLit l s else none

/-- Result of running the matcher on a finite window. -/
inductive PRes where
  | failed : PRes
  | success : List Char → PRes
  | more : List Tok → PRes
deriving DecidableEq

/-- Run the deterministic matcher on the window `u` only. -/
def pmatch : List Tok → List Char → PRes
  | [], s => PRes.success s
  | Tok.lit l :: ts, s =>
      (match stripLit l s with
      | none => PRes.failed
      | some (Sum.inl s') => pmatch ts s'
      | some (Sum.inr l') => PRes.more (Tok.lit l' :: ts))
  | Tok.ws :: ts, s =>
      (match s.dropWhile isPySpace with
      | [] => PRes.more (Tok.ws :: ts)
      | c :: s' => pmatch ts (c :: s'))

theorem stripLit_inl : ∀ (l s s' : List Char), stripLit l s = some (Sum.inl s') → s = l ++ s' := by
  intro l
  induction l with
  | nil => intro s s' h; simp only [stripLit, Option.some.injEq, Sum.inl.injEq] at h; simp [h]
  | cons c l ih =>
      intro s s' h
      cases s with
      | nil => simp [stripLit] at h
      | cons d s2 =>
          simp only [stripLit] at h
          by_cases hcd : c = d
          · rw [if_pos hcd] at h
            have := ih s2 s' h
            simp [hcd, this]
          · rw [if_neg hcd] at h; exact absurd h (by simp)

theorem stripLit_inr : ∀ (l s l' : List Char), stripLit l s = some (Sum.inr l') →
    l = s ++ l' ∧ l' ≠ [] := by
  intro l
  induction l with
  | nil => intro s l' h; simp [stripLit] at h
  | cons c l ih =>
      intro s l' h
      cases s with
      | nil =>
          simp only [stripLit, Option.some.injEq, Sum.inr.injEq] at h
          simp [← h]
      | cons d s2 =>
          simp only [stripLit] at h
          by_cases hcd : c = d
          · rw [if_pos hcd] at h
            obtain ⟨h1, h2⟩ := ih s2 l' h
            exact ⟨by simp [hcd, h1], h2⟩
          · rw [if_neg hcd] at h; exact absurd h (by simp)

theorem stripLit_none : ∀ (l s : List Char), stripLit l s = none →
    ∀ v, l.isPrefixOf (s ++ v) = false := by
  intro l
  induction l with
  | nil => intro s h; simp [stripLit] at h
  | cons c l ih =>
      intro s h v
      cases s with
      | nil => simp [stripLit] at h
      | cons d s2 =>
          simp only [stripLit] at h
          by_cases hcd : c = d
          · rw [if_pos hcd] at h
            have := ih s2 h v
            simp [List.isPrefixOf, this, hcd]
          · rw [if_neg hcd] at h
            have : (c == d) = false := beq_eq_false_iff_ne.mpr hcd
            simp [List.isPrefixOf, this]

/-- Composition law: matching `u ++ v` is matching the window `u`, then
continuing into `v` according to the window's outcome. -/
theorem mcomp : ∀ (p : List Tok) (u v : List Char),
    matchToks p (u ++ v) =
      (match pmatch p u with
       | PRes.failed => none
       | PRes.success rem => some (rem ++ v)
       | PRes.more q => matchToks q v) := by
  intro p
  induction p with
  | nil => intro u v; rfl
  | cons t ts ih =>
      cases t with
      | lit l =>
          intro u v
          cases hsl : stripLit l u with
          | none =>
              have hpre := stripLit_none l u hsl v
              simp [matchToks, pmatch, hsl, hpre]
          | some x =>
              cases x with
              | inl u' =>
                  have hu : u = l ++ u' := stripLit_inl l u u' hsl
                  subst hu
                  have hp : l.isPrefixOf (l ++ (u' ++ v)) = true := by
                    simp [List.isPrefixOf_iff_prefix]
                  simp only [pmatch, hsl, List.append_assoc, matchToks, hp, if_true,
                    List.drop_left]
                  exact ih u' v
              | inr l' =>
                  obtain ⟨hl, _hne⟩ := stripLit_inr l u l' hsl
                  subst hl
                  simp only [matchToks, pmatch, hsl, List.isPrefixOf_iff_prefix]
                  by_cases hp : l' <+: v
                  · obtain ⟨w, hw⟩ := hp
                    subst hw
                    have h1 : (u ++ l') <+: (u ++ (l' ++ w)) := by
                      rw [← List.append_assoc]; exact List.prefix_append _ _
                    rw [if_pos h1, if_pos (List.prefix_append _ _),
                      ← List.append_assoc, List.drop_left, List.drop_left]
                  · have h1 : ¬(u ++ l') <+: (u ++ v) := by
                      intro hx
                      obtain ⟨w, hw⟩ := hx
                      rw [List.append_assoc] at hw
                      exact hp ⟨w, List.append_cancel_left hw⟩
                    rw [if_neg h1, if_neg hp]
      | ws =>
          intro u v
          cases hdw : u.dropWhile isPySpace with
          | nil =>
              have hud : (u ++ v).dropWhile isPySpace = v.dropWhile isPySpace := by
                rw [List.dropWhile_append]; simp [hdw]
              simp [matchToks, pmatch, hdw, hud]
          | cons c u' =>
              have hud : (u ++ v).dropWhile isPySpace = (c :: u') ++ v := by
                rw [List.dropWhile_append]; simp [hdw]
              simp only [matchToks, pmatch, hdw, hud]
              exact ih (c :: u') v

/-! ### Residual patterns

`residualsAll p` lists every pattern that `pmatch p u` can report as still
pending: a nonempty suffix of one of the literals followed by the rest of the
token list, or a `\s*` followed by the rest.  It is finite and computable, so
hypotheses quantified over residuals can be checked by `decide`. -/

/-- The nonempty suffixes of a literal. -/
def tailsNE (l : List Char) : List (List Char) := l.tails.filter (fun t => !t.isEmpty)

def residualsAll : List Tok → List (List Tok)
  | [] => []
  | Tok.lit l :: ts => (tailsNE l).map (fun l' => Tok.lit l' :: ts) ++ residualsAll ts
  | Tok.ws :: ts => (Tok.ws :: ts) :: residualsAll ts

theorem mem_tailsNE {l' l : List Char} : l' ∈ tailsNE l ↔ l' <:+ l ∧ l' ≠ [] := by
  simp [tailsNE, List.mem_filter, List.mem_tails, List.isEmpty_iff]

/-- Every pending pattern reported by `pmatch` is a residual. -/
theorem resid_mem : ∀ (p : List Tok) (u : List Char) (q : List Tok),
    pmatch p u = PRes.more q → q ∈ residualsAll p := by
  intro p
  induction p with
  | nil => intro u q h; simp [pmatch] at h
  | cons t ts ih =>
      cases t with
      | lit l =>
          intro u q h
          cases hsl : stripLit l u with
          | none => rw [pmatch, hsl] at h; exact absurd h (by simp)
          | some x =>
              cases x with
              | inl u' =>
                  rw [pmatch, hsl] at h
                  exact List.mem_append_right _ (ih u' q h)
              | inr l' =>
                  rw [pmatch, hsl] at h
                  have hq : q = Tok.lit l' :: ts := by
                    cases h; rfl
                  obtain ⟨h1, h2⟩ := stripLit_inr l u l' hsl
                  apply List.mem_append_left
                  rw [hq]
                  exact List.mem_map_of_mem _ (mem_tailsNE.mpr ⟨⟨u, h1.symm⟩, h2⟩)
      | ws =>
          intro u q h
          cases hdw : u.dropWhile isPySpace with
          | nil =>
              rw [pmatch, hdw] at h
              have hq : q = Tok.ws :: ts := by cases h; rfl
              rw [hq, residualsAll]
              exact List.mem_cons_self _ _
          | cons c u' =>
              rw [pmatch, hdw] at h
              exact List.mem_cons_of_mem _ (ih (c :: u') q h)

/-- Residuals of residuals are residuals. -/
theorem resid_mono : ∀ (p q : List Tok), q ∈ residualsAll p →
    ∀ q', q' ∈ residualsAll q → q' ∈ residualsAll p := by
  intro p
  induction p with
  | nil => intro q hq; simp [residualsAll] at hq
  | cons t ts ih =>
      cases t with
      | lit l =>
          intro q hq q' hq'
          rw [residualsAll] at hq
          rcases List.mem_append.mp hq with hql | hqr
          · obtain ⟨l2, hl2, hq2⟩ := List.mem_map.mp hql
            obtain ⟨hl2s, hl2ne⟩ := mem_tailsNE.mp hl2
            subst hq2
            rw [residualsAll] at hq'
            rcases List.mem_append.mp hq' with hq'l | hq'r
            · obtain ⟨l3, hl3, hq3⟩ := List.mem_map.mp hq'l
              obtain ⟨hl3s, hl3ne⟩ := mem_tailsNE.mp hl3
              subst hq3
              apply List.mem_append_left
              exact List.mem_map_of_mem _ (mem_tailsNE.mpr ⟨hl3s.trans hl2s, hl3ne⟩)
            · exact List.mem_append_right _ hq'r
          · exact List.mem_append_right _ (ih q hqr q' hq')
      | ws =>
          intro q hq q' hq'
          rw [residualsAll] at hq
          rcases List.mem_cons.mp hq with hqh | hqt
          · subst hqh; exact hq'
          · exact List.mem_cons_of_mem _ (ih q hqt q' hq')

/-! ### Basic properties of the matchers and of `reSub` -/

theorem reSubGo_fuel (p : List Tok) (repl : List Char) :
    ∀ n m s, s.length ≤ n → s.length ≤ m → reSubGo p repl n s = reSubGo p repl m s := by
  intro n
  induction n with
  | zero =>
      intro m s hn _hm
      have hs : s = [] := List.length_eq_zero.mp (Nat.le_zero.mp hn)
      subst hs
      cases m <;> rfl
  | succ n ih =>
      intro m s hn hm
      cases s with
      | nil => cases m <;> rfl
      | cons c rest =>
          have hr : rest.length ≤ n := by
            simp only [List.length_cons] at hn; omega
          cases m with
          | zero => simp only [List.length_cons] at hm; omega
          | succ m' =>
              have hm' : rest.length ≤ m' := by
                simp only [List.length_cons] at hm; omega
              simp only [reSubGo]
              cases hmt : matchToksBT p (c :: rest) with
              | none => simp only [ih m' rest hr hm']
              | some rem =>
                  by_cases hle : rem.length ≤ rest.length
                  · simp only [if_pos hle, ih m' rem (le_trans hle hr) (le_trans hle hm')]
                  · simp only [if_neg hle, ih m' rest hr hm']

theorem reSub_nil_of_none (p : List Tok) (repl : List Char)
    (h : matchToksBT p [] = none) : reSub p repl [] = ([], 0) := by
  simp [reSub, reSubGo, h]

theorem reSub_cons_none (p : List Tok) (repl : List Char) (c : Char) (rest : List Char)
    (h : matchToksBT p (c :: rest) = none) :
    reSub p repl (c :: rest) = (c :: (reSub p repl rest).1, (reSub p repl rest).2) := by
  simp only [reSub, List.length_cons, reSubGo, h]

theorem reSub_cons_some (p : List Tok) (repl : List Char) (c : Char) (rest rem : List Char)
    (h : matchToksBT p (c :: rest) = some rem) (hle : rem.length ≤ rest.length) :
    reSub p repl (c :: rest) = (repl ++ (reSub p repl rem).1, (reSub p repl rem).2 + 1) := by
  simp only [reSub, List.length_cons, reSubGo, h, if_pos hle]
  rw [reSubGo_fuel p repl rest.length rem.length rem hle (Nat.le_refl _)]

/-- A successful match consumes a prefix: the remainder is a suffix of the input. -/
theorem matchToksBT_suffix :
    ∀ (p : List Tok) (s r : List Char), matchToksBT p s = some r → ∃ t, s = t ++ r := by
  intro p
  induction p with
  | nil =>
      intro s r h
      simp only [matchToksBT, Option.some.injEq] at h
      exact ⟨[], by simp [h]⟩
  | cons t ts ih =>
      cases t with
      | lit l =>
          intro s r h
          simp only [matchToksBT] at h
          by_cases hp : l.isPrefixOf s
          · rw [if_pos hp] at h
            have hpre : l <+: s := List.isPrefixOf_iff_prefix.mp hp
            obtain ⟨w, hw⟩ := hpre
            have hdrop : s.drop l.length = w := by rw [← hw, List.drop_left]
            rw [hdrop] at h
            obtain ⟨t2, ht2⟩ := ih w r h
            exact ⟨l ++ t2, by rw [← hw, ht2, List.append_assoc]⟩
          · rw [if_neg hp] at h; exact absurd h (by simp)
      | ws =>
          intro s r h
          simp only [matchToksBT] at h
          obtain ⟨k, _hk, hsk⟩ := List.exists_of_findSome?_eq_some h
          obtain ⟨t2, ht2⟩ := ih (s.drop k) r hsk
          refine ⟨s.take k ++ t2, ?_⟩
          rw [List.append_assoc, ← ht2, List.take_append_drop]

theorem matchToksBT_length_le (p : List Tok) (s r : List Char)
    (h : matchToksBT p s = some r) : r.length ≤ s.length := by
  obtain ⟨t, ht⟩ := matchToksBT_suffix p s r h
  subst ht; simp

/-- When the pattern starts with a nonempty literal, a match consumes at least
one character. -/
theorem matchToksBT_length_lt (c0 : Char) (l0 : List Char) (ts : List Tok)
    (s r : List Char) (h : matchToksBT (Tok.lit (c0 :: l0) :: ts) s = some r) :
    r.length < s.length := by
  simp only [matchToksBT] at h
  by_cases hp : (c0 :: l0).isPrefixOf s
  · rw [if_pos hp] at h
    obtain ⟨w, hw⟩ := List.isPrefixOf_iff_prefix.mp hp
    have hdrop : s.drop (c0 :: l0).length = w := by rw [← hw, List.drop_left]
    rw [hdrop] at h
    have := matchToksBT_length_le ts w r h
    have hlen : (c0 :: l0 ++ w).length = s.length := congrArg List.length hw
    simp only [List.length_append, List.length_cons] at hlen
    omega
  · rw [if_neg hp] at h; exact absurd h (by simp)

/-- A pattern starting with a nonempty literal never matches the empty document. -/
theorem matchToksBT_nil_none (c0 : Char) (l0 : List Char) (ts : List Tok) :
    matchToksBT (Tok.lit (c0 :: l0) :: ts) [] = none := by
  simp [matchToksBT, List.isPrefixOf]

theorem matchToksBT_ws (ts : List Tok) (s : List Char) :
    matchToksBT (Tok.ws :: ts) s =
      (List.range ((s.takeWhile isPySpace).length + 1)).reverse.findSome?
        (fun k => matchToksBT ts (s.drop k)) := rfl

theorem dropWhile_eq_drop_length_takeWhile (P : Char → Bool) (s : List Char) :
    s.dropWhile P = s.drop (s.takeWhile P).length := by
  induction s with
  | nil => rfl
  | cons a t ih =>
      by_cases h : P a <;>
        simp [List.dropWhile_cons, List.takeWhile_cons, h, ih]

theorem drop_takeWhile_mem (P : Char → Bool) :
    ∀ (s : List Char) (k : Nat), k < (s.takeWhile P).length →
      ∃ d t, s.drop k = d :: t ∧ P d = true := by
  intro s
  induction s with
  | nil => intro k hk; simp at hk
  | cons a t ih =>
      intro k hk
      by_cases h : P a
      · cases k with
        | zero => exact ⟨a, t, rfl, h⟩
        | succ k' =>
            simp only [List.takeWhile_cons, h, if_true, List.length_cons] at hk
            exact ih k' (by omega)
      · simp [List.takeWhile_cons, h] at hk

/-- On good patterns the backtracking matcher agrees with the deterministic
maximal-munch matcher: the greedy longest-whitespace try either succeeds, or
every shorter try fails at the following literal's first character. -/
theorem matchToksBT_eq (p : List Tok) (hg : goodPat p = true) :
    ∀ s, matchToksBT p s = matchToks p s := by
  induction p with
  | nil => intro s; rfl
  | cons t ts ih =>
      cases t with
      | lit l =>
          intro s
          have hg' : goodPat ts = true := by simpa [goodPat] using hg
          by_cases hp : l.isPrefixOf s <;>
            simp [matchToksBT, matchToks, hp, ih hg']
      | ws =>
          cases ts with
          | nil => simp [goodPat] at hg
          | cons t2 ts2 =>
              cases t2 with
              | ws => simp [goodPat] at hg
              | lit l2 =>
                  cases l2 with
                  | nil => simp [goodPat] at hg
                  | cons c2 l2' =>
                      simp only [goodPat, Bool.and_eq_true, Bool.not_eq_true'] at hg
                      obtain ⟨hc2, hg'⟩ := hg
                      have hg2 : goodPat (Tok.lit (c2 :: l2') :: ts2) = true := by
                        simp [goodPat, hg']
                      intro s
                      have hdet : matchToks (Tok.ws :: Tok.lit (c2 :: l2') :: ts2) s =
                          matchToks (Tok.lit (c2 :: l2') :: ts2)
                            (s.drop (s.takeWhile isPySpace).length) := by
                        simp only [matchToks]
                        rw [← dropWhile_eq_drop_length_takeWhile]
                      rw [hdet, matchToksBT_ws]
                      rw [List.range_succ]
                      simp only [List.reverse_append, List.reverse_cons, List.reverse_nil,
                        List.nil_append, List.singleton_append, List.findSome?_cons]
                      cases h0 : matchToksBT (Tok.lit (c2 :: l2') :: ts2)
                          (s.drop (s.takeWhile isPySpace).length) with
                      | some r => rw [← ih hg2, h0]
                      | none =>
                          rw [← ih hg2, h0]
                          apply List.findSome?_eq_none_iff.mpr
                          intro k hk
                          have hklt : k < (s.takeWhile isPySpace).length := by
                            rw [List.mem_reverse, List.mem_range] at hk
                            exact hk
                          obtain ⟨d, t, hdt, hd⟩ := drop_takeWhile_mem isPySpace s k hklt
                          have hne : (c2 == d) = false := by
                            apply beq_eq_false_iff_ne.mpr
                            intro he; rw [he, hd] at hc2; exact absurd hc2 (by simp)
                          simp [matchToksBT, hdt, List.isPrefixOf, hne]

/-! ### The facts about a (pattern, replacement) pair that drive idempotence

`PatOK p repl` collects finitely checkable facts: the pattern starts with a
nonempty literal, it is good, no residual of the pattern survives being run
against the replacement (the matcher fails strictly inside the replacement),
and the pattern fails strictly inside the replacement when started at any
interior position of the replacement.  All four are established by `decide`
for the three scripts. -/

structure PatOK (p : List Tok) (repl : List Char) : Prop where
  shape : ∃ c0 l0 ts, p = Tok.lit (c0 :: l0) :: ts
  good : goodPat p = true
  res : ∀ q ∈ residualsAll p, pmatch q repl = PRes.failed
  rin : ∀ i, i < repl.length → 0 < i → pmatch p (List.drop i repl) = PRes.failed

theorem PatOK.nilBT {p : List Tok} {repl : List Char} (hok : PatOK p repl) :
    matchToksBT p [] = none := by
  obtain ⟨c0, l0, ts0, hp⟩ := hok.shape
  rw [hp]; exact matchToksBT_nil_none c0 l0 ts0

theorem PatOK.consume {p : List Tok} {repl : List Char} (hok : PatOK p repl)
    {s rem : List Char} (h : matchToksBT p s = some rem) : rem.length < s.length := by
  obtain ⟨c0, l0, ts0, hp⟩ := hok.shape
  rw [hp] at h
  exact matchToksBT_length_lt c0 l0 ts0 s rem h

theorem PatOK.mem_self {p : List Tok} {repl : List Char} (hok : PatOK p repl) :
    p ∈ residualsAll p := by
  obtain ⟨c0, l0, ts0, hp⟩ := hok.shape
  rw [hp, residualsAll]
  apply List.mem_append_left
  exact List.mem_map_of_mem _ (mem_tailsNE.mpr ⟨List.suffix_refl _, by simp⟩)

/-- No residual of the pattern can match anything that starts with the
replacement text. -/
theorem PatOK.repl_none {p : List Tok} {repl : List Char} (hok : PatOK p repl)
    (q : List Tok) (hq : q ∈ residualsAll p) (t : List Char) :
    matchToks q (repl ++ t) = none := by
  rw [mcomp, hok.res q hq]

/-- The pattern cannot match anything that starts at an interior position of
the replacement text. -/
theorem PatOK.rin_none {p : List Tok} {repl : List Char} (hok : PatOK p repl)
    (i : Nat) (h1 : 0 < i) (h2 : i < repl.length) (t : List Char) :
    matchToks p (List.drop i repl ++ t) = none := by
  rw [mcomp, hok.rin i h2 h1]

/-- Core of idempotence, part 1: a residual pattern that does not match at a
given position of the original document does not match at the corresponding
position of the substituted document. -/
theorem gstar {p : List Tok} {repl : List Char} (hok : PatOK p repl) :
    ∀ (n : Nat) (s : List Char), s.length ≤ n →
      ∀ q, q ∈ residualsAll p → matchToks q s = none →
        matchToks q (reSub p repl s).1 = none := by
  intro n
  induction n with
  | zero =>
      intro s hn q _hq hqn
      have hs : s = [] := List.length_eq_zero.mp (Nat.le_zero.mp hn)
      subst hs
      rw [reSub_nil_of_none p repl hok.nilBT]
      exact hqn
  | succ n ih =>
      intro s hn q hq hqn
      cases s with
      | nil =>
          rw [reSub_nil_of_none p repl hok.nilBT]
          exact hqn
      | cons c rest =>
          have hrest : rest.length ≤ n := by
            simp only [List.length_cons] at hn; omega
          cases hm : matchToksBT p (c :: rest) with
          | none =>
              rw [reSub_cons_none p repl c rest hm]
              have e1 := mcomp q [c] (reSub p repl rest).1
              have e2 := mcomp q [c] rest
              rw [List.singleton_append] at e1 e2
              cases hpm : pmatch q [c] with
              | failed => rw [e1, hpm]
              | success rem =>
                  exfalso
                  rw [e2, hpm] at hqn
                  exact absurd hqn (by simp)
              | more q1 =>
                  rw [e1, hpm]
                  have hq1 : q1 ∈ residualsAll p :=
                    resid_mono p q hq q1 (resid_mem q [c] q1 hpm)
                  have hq1n : matchToks q1 rest = none := by
                    rw [e2, hpm] at hqn; exact hqn
                  exact ih rest hrest q1 hq1 hq1n
          | some rem =>
              have hlt2 : rem.length ≤ rest.length := by
                have := hok.consume hm
                simp only [List.length_cons] at this; omega
              rw [reSub_cons_some p repl c rest rem hm hlt2]
              exact hok.repl_none q hq _

/-- Core of idempotence, part 2: the pattern matches nowhere in the output of
`reSub`. -/
theorem g2 {p : List Tok} {repl : List Char} (hok : PatOK p repl) :
    ∀ (n : Nat) (s : List Char), s.length ≤ n →
      ∀ i, matchToks p (List.drop i (reSub p repl s).1) = none := by
  have hnilD : matchToks p [] = none := by
    rw [← matchToksBT_eq p hok.good]; exact hok.nilBT
  intro n
  induction n with
  | zero =>
      intro s hn i
      have hs : s = [] := List.length_eq_zero.mp (Nat.le_zero.mp hn)
      subst hs
      rw [reSub_nil_of_none p repl hok.nilBT]
      simp only [List.drop_nil]
      exact hnilD
  | succ n ih =>
      intro s hn i
      cases s with
      | nil =>
          rw [reSub_nil_of_none p repl hok.nilBT]
          simp only [List.drop_nil]
          exact hnilD
      | cons c rest =>
          have hrest : rest.length ≤ n := by
            simp only [List.length_cons] at hn; omega
          cases hm : matchToksBT p (c :: rest) with
          | none =>
              rw [reSub_cons_none p repl c rest hm]
              have hmD : matchToks p (c :: rest) = none := by
                rw [← matchToksBT_eq p hok.good]; exact hm
              cases i with
              | zero =>
                  simp only [List.drop_zero]
                  have e1 := mcomp p [c] (reSub p repl rest).1
                  have e2 := mcomp p [c] rest
                  rw [List.singleton_append] at e1 e2
                  cases hpm : pmatch p [c] with
                  | failed => rw [e1, hpm]
                  | success rem =>
                      exfalso
                      rw [e2, hpm] at hmD
                      exact absurd hmD (by simp)
                  | more q1 =>
                      rw [e1, hpm]
                      have hq1 : q1 ∈ residualsAll p := resid_mem p [c] q1 hpm
                      have hq1n : matchToks q1 rest = none := by
                        rw [e2, hpm] at hmD; exact hmD
                      exact gstar hok rest.length rest (Nat.le_refl _) q1 hq1 hq1n
              | succ j =>
                  simp only [List.drop_succ_cons]
                  exact ih rest hrest j
          | some rem =>
              have hlt2 : rem.length ≤ rest.length := by
                have := hok.consume hm
                simp only [List.length_cons] at this; omega
              have hremn : rem.length ≤ n := Nat.le_trans hlt2 hrest
              rw [reSub_cons_some p repl c rest rem hm hlt2]
              rcases Nat.lt_trichotomy i repl.length with hilt | hieq | higt
              · cases i with
                | zero =>
                    simp only [List.drop_zero]
                    exact hok.repl_none p hok.mem_self _
                | succ j =>
                    rw [List.drop_append_of_le_length (Nat.le_of_lt hilt)]
                    exact hok.rin_none (j + 1) (Nat.succ_pos j) hilt _
              · subst hieq
                rw [List.drop_append_of_le_length (Nat.le_refl _), List.drop_length,
                  List.nil_append]
                have := ih rem hremn 0
                simpa using this
              · obtain ⟨j, hj⟩ : ∃ j, i = repl.length + j := ⟨i - repl.length, by omega⟩
                subst hj
                rw [List.drop_append]
                exact ih rem hremn j

/-- If the pattern matches nowhere in a document, `reSub` returns the document
unchanged with zero replacements. -/
theorem reSub_of_noMatch {p : List Tok} {repl : List Char} (hok : PatOK p repl) :
    ∀ (n : Nat) (s : List Char), s.length ≤ n →
      (∀ i, matchToks p (List.drop i s) = none) → reSub p repl s = (s, 0) := by
  intro n
  induction n with
  | zero =>
      intro s hn _hnm
      have hs : s = [] := List.length_eq_zero.mp (Nat.le_zero.mp hn)
      subst hs
      exact reSub_nil_of_none p repl hok.nilBT
  | succ n ih =>
      intro s hn hnm
      cases s with
      | nil => exact reSub_nil_of_none p repl hok.nilBT
      | cons c rest =>
          have hrest : rest.length ≤ n := by
            simp only [List.length_cons] at hn; omega
          have h0 : matchToks p (c :: rest) = none := by
            have := hnm 0; simpa using this
          have h0BT : matchToksBT p (c :: rest) = none := by
            rw [matchToksBT_eq p hok.good]; exact h0
          rw [reSub_cons_none p repl c rest h0BT]
          have hrnm : ∀ i, matchToks p (List.drop i rest) = none := by
            intro i
            have := hnm (i + 1)
            simpa [List.drop_succ_cons] using this
          rw [ih rest hrest hrnm]

/-- Idempotence, generic form: running `reSub` on its own output finds no
match and changes nothing. -/
theorem reSub_idem {p : List Tok} {repl : List Char} (hok : PatOK p repl)
    (s : List Char) :
    reSub p repl (reSub p repl s).1 = ((reSub p repl s).1, 0) := by
  apply reSub_of_noMatch hok (reSub p repl s).1.length _ (Nat.le_refl _)
  exact g2 hok s.length s (Nat.le_refl _)

/-- A run that reports zero replacements returned its input unchanged. -/
theorem reSub_count_zero {p : List Tok} {repl : List Char} (hok : PatOK p repl) :
    ∀ (n : Nat) (s : List Char), s.length ≤ n →
      (reSub p repl s).2 = 0 → (reSub p repl s).1 = s := by
  intro n
  induction n with
  | zero =>
      intro s hn _h2
      have hs : s = [] := List.length_eq_zero.mp (Nat.le_zero.mp hn)
      subst hs
      rw [reSub_nil_of_none p repl hok.nilBT]
  | succ n ih =>
      intro s hn h2
      cases s with
      | nil => rw [reSub_nil_of_none p repl hok.nilBT]
      | cons c rest =>
          have hrest : rest.length ≤ n := by
            simp only [List.length_cons] at hn; omega
          cases hm : matchToksBT p (c :: rest) with
          | none =>
              rw [reSub_cons_none p repl c rest hm] at h2 ⊢
              simp only at h2 ⊢
              rw [ih rest hrest h2]
          | some rem =>
              exfalso
              have hlt2 : rem.length ≤ rest.length := by
                have := hok.consume hm
                simp only [List.length_cons] at this; omega
              rw [reSub_cons_some p repl c rest rem hm hlt2] at h2
              simp at h2

set_option maxRecDepth 100000 in
theorem adminOK : PatOK adminPat adminRepl :=
  ⟨⟨'u', ("ser: \x7b".data), adminPat.tail, by decide⟩, by decide, by decide, by decide⟩

set_option maxRecDepth 100000 in
theorem queryOK : PatOK queryPat queryRepl :=
  ⟨⟨'u', ("ser: \x7b".data), queryPat.tail, by decide⟩, by decide, by decide, by decide⟩

set_option maxRecDepth 100000 in
theorem consensusOK : PatOK consensusPat consensusRepl :=
  ⟨⟨'u', ("ser: \x7b".data), consensusPat.tail, by decide⟩, by decide, by decide, by decide⟩

/-! ### Specification-side description of one `re.sub` pass

`SubSpec p repl s out n` transcribes the spec's sentence: `out` is `s` with
every non-overlapping, left-to-right match of the pattern replaced by the
replacement text, and `n` is the number of replacements performed.  Scanning
left to right, a character at which no match starts is kept; at a position
where a match starts, the (nonempty) matched segment is replaced and the scan
resumes after it. -/

inductive SubSpec (p : List Tok) (repl : List Char) : List Char → List Char → Nat → Prop
  | nil : SubSpec p repl [] [] 0
  | keep {c : Char} {s out : List Char} {n : Nat} :
      matchToksBT p (c :: s) = none → SubSpec p repl s out n →
      SubSpec p repl (c :: s) (c :: out) n
  | replace {m s out : List Char} {n : Nat} :
      m ≠ [] → matchToksBT p (m ++ s) = some s → SubSpec p repl s out n →
      SubSpec p repl (m ++ s) (repl ++ out) (n + 1)

/-- Realization theorem: `reSub` satisfies `SubSpec` (for patterns that cannot
match the empty string). -/
theorem reSub_subSpec {p : List Tok} {repl : List Char} (hok : PatOK p repl) :
    ∀ (n : Nat) (s : List Char), s.length ≤ n →
      SubSpec p repl s (reSub p repl s).1 (reSub p repl s).2 := by
  intro n
  induction n with
  | zero =>
      intro s hn
      have hs : s = [] := List.length_eq_zero.mp (Nat.le_zero.mp hn)
      subst hs
      rw [reSub_nil_of_none p repl hok.nilBT]
      exact SubSpec.nil
  | succ n ih =>
      intro s hn
      cases s with
      | nil =>
          rw [reSub_nil_of_none p repl hok.nilBT]
          exact SubSpec.nil
      | cons c rest =>
          have hrest : rest.length ≤ n := by
            simp only [List.length_cons] at hn; omega
          cases hm : matchToksBT p (c :: rest) with
          | none =>
              rw [reSub_cons_none p repl c rest hm]
              exact SubSpec.keep hm (ih rest hrest)
          | some rem =>
              have hcons := hok.consume hm
              have hlt2 : rem.length ≤ rest.length := by
                simp only [List.length_cons] at hcons; omega
              have hremn : rem.length ≤ n := Nat.le_trans hlt2 hrest
              rw [reSub_cons_some p repl c rest rem hm hlt2]
              obtain ⟨t, ht⟩ := matchToksBT_suffix p (c :: rest) rem hm
              have hne : t ≠ [] := by
                intro h0
                rw [h0, List.nil_append] at ht
                rw [ht] at hcons
                exact absurd hcons (by omega)
              rw [ht] at hm ⊢
              exact SubSpec.replace hne hm (ih rem hremn)

/-! ### The read–substitute–write shell

Each script is `open(path) ; read ; re.sub ; open(path, "w") ; write ; print(msg)`.
The file system is abstracted to the one target file: `content?` is its
content (`none` when the file is missing or unreadable), `writable` says
whether opening it for writing succeeds.  An uncaught `OSError` aborts the
interpreter with exit status 1, before anything is printed; on success the
interpreter exits with status 0. -/

structure FS where
  content? : Option (List Char)
  writable : Bool

structure RunResult where
  fs : FS
  exitCode : Nat
  stdout : List (List Char)
  wrote : Bool

/-- Run one script's shell on the abstract file state. -/
def runFix (p : List Tok) (repl msg : List Char) (f : FS) : RunResult :=
  match f.content? with
  | none => ⟨f, 1, [], false⟩
  | some content =>
      if f.writable then
        ⟨⟨some (reSub p repl content).1, f.writable⟩, 0, [msg], true⟩
      else
        ⟨f, 1, [], false⟩

/-- Whole-script model of `fix_admin_type.py`. -/
def adminRun (f : FS) : RunResult := runFix adminPat adminRepl adminMsg f

/-- Whole-script model of `fix_query.py`. -/
def queryRun (f : FS) : RunResult := runFix queryPat queryRepl queryMsg f

/-- Whole-script model of `fix_consensus_query.py`. -/
def consensusRun (f : FS) : RunResult := runFix consensusPat consensusRepl consensusMsg f

/-- Decidable check: the pattern matches at no position of `s`. -/
def noMatchB (p : List Tok) (s : List Char) : Bool :=
  (List.range (s.length + 1)).all (fun i => (matchToksBT p (List.drop i s)).isNone)

theorem noMatch_all {p : List Tok} (hg : goodPat p = true) {s : List Char}
    (h : noMatchB p s = true) : ∀ i, matchToks p (List.drop i s) = none := by
  intro i
  rw [← matchToksBT_eq p hg]
  rw [noMatchB, List.all_eq_true] at h
  rcases Nat.lt_or_ge i (s.length + 1) with hi | hi
  · have := h i (List.mem_range.mpr hi)
    exact Option.isNone_iff_eq_none.mp this
  · have hd : List.drop i s = [] := List.drop_eq_nil_of_le (by omega)
    have := h s.length (List.mem_range.mpr (by omega))
    rw [List.drop_length] at this
    rw [hd]
    exact Option.isNone_iff_eq_none.mp this

/-- A zero-match run of `reSub` leaves the document unchanged (stated via
`noMatchB`). -/
theorem reSub_noMatchB {p : List Tok} {repl : List Char} (hok : PatOK p repl)
    {s : List Char} (h : noMatchB p s = true) : reSub p repl s = (s, 0) :=
  reSub_of_noMatch hok s.length s (Nat.le_refl _) (noMatch_all hok.good h)

/-! ### Substring search helpers, used to state the concrete scenarios -/

/-- Remainder of `hay` after the first occurrence of `needle`, if any. -/
def findOcc (needle : List Char) : List Char → Option (List Char)
  | [] => if needle.isEmpty then some [] else none
  | c :: t =>
      if needle.isPrefixOf (c :: t) then some ((c :: t).drop needle.length)
      else findOcc needle t

/-- Does `needle` occur in `hay`? -/
def hasOcc (needle hay : List Char) : Bool := (findOcc needle hay).isSome

/-- Do the needles occur in `hay`, in order, in disjoint positions? -/
def seqContains : List Char → List (List Char) → Bool
  | _, [] => true
  | hay, n :: ns =>
      match findOcc n hay with
      | some rest => seqContains rest ns
      | none => false

/-- Spec Scenario 1: the document. -/
def scenario1Doc : List Char :=
  ("user: \x7b\n  id: string;\n  name: string | null;\n  email: string | null;\n  profile?: Profile;\n\x7d").data

/-- Spec Scenario 2: a document containing the targeted `include` block. -/
def scenario2Doc : List Char :=
  ("applications: \x7b\nuser: \x7b\n  include: \x7b\n    profile: true,\n  \x7d,\n\x7d,\nstatus: true,\n\x7d").data

/-! ### Whitespace tolerance

`altPat lits` is the pattern alternating the fixed literals `lits` with `\s*`;
`altFrag lits wss` is the document fragment obtained by interleaving the same
literals with concrete whitespace runs `wss`.  Any two fragments built from
the same literals and arbitrary (possibly empty) whitespace runs are both
matched in full. -/

def altPat : List (List Char) → List Tok
  | [] => []
  | [l] => [Tok.lit l]
  | l :: ls => Tok.lit l :: Tok.ws :: altPat ls

def altFrag : List (List Char) → List (List Char) → List Char
  | [], _ => []
  | [l], _ => l
  | l :: ls, [] => l ++ altFrag ls []
  | l :: ls, w :: wss => l ++ w ++ altFrag ls wss

theorem altFrag_head (c : Char) (cs : List Char) (ls wss : List (List Char)) :
    ∃ t, altFrag ((c :: cs) :: ls) wss = c :: t := by
  cases ls with
  | nil => exact ⟨cs, by simp [altFrag]⟩
  | cons l2 ls2 =>
      cases wss with
      | nil => exact ⟨cs ++ altFrag (l2 :: ls2) [], by simp [altFrag]⟩
      | cons w wss2 => exact ⟨cs ++ (w ++ altFrag (l2 :: ls2) wss2), by simp [altFrag]⟩

theorem dropWhile_ws_append {w : List Char} (hw : ∀ ch ∈ w, isPySpace ch = true)
    {c : Char} (hc : isPySpace c = false) (t : List Char) :
    (w ++ c :: t).dropWhile isPySpace = c :: t := by
  rw [List.dropWhile_append]
  have h1 : w.dropWhile isPySpace = [] := List.dropWhile_eq_nil_iff.mpr hw
  simp [h1, List.dropWhile_cons, hc]

/-- Any interleaving of the pattern's literals with whitespace runs is matched
in full by the deterministic matcher. -/
theorem matchToks_altFrag :
    ∀ (lits wss : List (List Char)),
      (∀ l ∈ lits, l ≠ [] ∧ isPySpace l.headI = false) →
      (∀ x ∈ wss, ∀ ch ∈ x, isPySpace ch = true) →
      matchToks (altPat lits) (altFrag lits wss) = some [] := by
  intro lits
  induction lits with
  | nil => intro wss _ _; rfl
  | cons l ls ih =>
      intro wss hlit hws
      obtain ⟨hlne, hlhead⟩ := hlit l (List.mem_cons_self _ _)
      cases l with
      | nil => exact absurd rfl hlne
      | cons c cs =>
          simp only [List.headI] at hlhead
          cases ls with
          | nil =>
              simp only [altPat, altFrag, matchToks, List.isPrefixOf_iff_prefix]
              rw [if_pos (List.prefix_refl _), List.drop_length]
          | cons l2 ls2 =>
              have hl2 := hlit l2 (List.mem_cons_of_mem _ (List.mem_cons_self _ _))
              obtain ⟨c2, cs2, hl2eq⟩ : ∃ c2 cs2, l2 = c2 :: cs2 := by
                cases l2 with
                | nil => exact absurd rfl hl2.1
                | cons a b => exact ⟨a, b, rfl⟩
              subst hl2eq
              have hc2 : isPySpace c2 = false := by
                simpa [List.headI] using hl2.2
              have key : ∀ (x : List Char) (wss2 : List (List Char)),
                  (∀ ch ∈ x, isPySpace ch = true) →
                  (∀ y ∈ wss2, ∀ ch ∈ y, isPySpace ch = true) →
                  matchToks (altPat ((c :: cs) :: (c2 :: cs2) :: ls2))
                    ((c :: cs) ++ (x ++ altFrag ((c2 :: cs2) :: ls2) wss2)) = some [] := by
                intro x wss2 hx hw2
                simp only [altPat, matchToks, List.isPrefixOf_iff_prefix]
                rw [if_pos (List.prefix_append _ _), List.drop_left]
                obtain ⟨t2, ht2⟩ := altFrag_head c2 cs2 ls2 wss2
                rw [ht2, dropWhile_ws_append hx hc2, ← ht2]
                exact ih wss2 (fun a ha => hlit a (List.mem_cons_of_mem _ ha)) hw2
              cases wss with
              | nil =>
                  have := key [] [] (by simp) (by simp)
                  simpa [altFrag] using this
              | cons w wss2 =>
                  have := key w wss2 (hws w (List.mem_cons_self _ _))
                    (fun y hy => hws y (List.mem_cons_of_mem _ hy))
                  simpa [altFrag] using this

/-- The fixed literals of `fix_admin_type.py`'s pattern, in order. -/
def adminLits : List (List Char) :=
  [("user: \x7b".data), ("id: string;".data), ("name: string | null;".data),
   ("email: string | null;".data), ("profile?:".data)]

/-- The fixed literals of `fix_query.py`'s pattern, in order. -/
def queryLits : List (List Char) :=
  [("user: \x7b".data), ("include: \x7b".data), ("profile: true,".data),
   ("\x7d,".data), ("\x7d,".data)]

/-- The fixed literals of `fix_consensus_query.py`'s pattern, in order. -/
def consensusLits : List (List Char) :=
  [("user: \x7b".data), ("select: \x7b".data), ("id: true,".data), ("name: true,".data),
   ("email: true,".data), ("\x7d,".data), ("\x7d,".data)]

theorem adminPat_alt : adminPat = altPat adminLits := rfl

theorem queryPat_alt : queryPat = altPat queryLits := rfl

theorem consensusPat_alt : consensusPat = altPat consensusLits := rfl

theorem bt_altFrag (lits : List (List Char)) (hg : goodPat (altPat lits) = true)
    (hlits : ∀ l ∈ lits, l ≠ [] ∧ isPySpace l.headI = false)
    (v : List (List Char)) (hv : ∀ x ∈ v, ∀ ch ∈ x, isPySpace ch = true) :
    matchToksBT (altPat lits) (altFrag lits v) = some [] := by
  rw [matchToksBT_eq _ hg]
  exact matchToks_altFrag lits v hlits hv

/-! ### The claims -/

/-- C1.  For every document, each script's substitution (`re.sub` with its
hard-coded pattern and replacement) returns the document with every
non-overlapping, left-to-right match of the pattern replaced by the
replacement text, and the reported count equals the number of replacements
performed (`SubSpec` transcribes exactly that reading of the spec). -/
theorem c1_replaces_every_match :
    (∀ s, SubSpec adminPat adminRepl s
        (reSub adminPat adminRepl s).1 (reSub adminPat adminRepl s).2) ∧
    (∀ s, SubSpec queryPat queryRepl s
        (reSub queryPat queryRepl s).1 (reSub queryPat queryRepl s).2) ∧
    (∀ s, SubSpec consensusPat consensusRepl s
        (reSub consensusPat consensusRepl s).1 (reSub consensusPat consensusRepl s).2) :=
  ⟨fun s => reSub_subSpec adminOK s.length s (Nat.le_refl _),
   fun s => reSub_subSpec queryOK s.length s (Nat.le_refl _),
   fun s => reSub_subSpec consensusOK s.length s (Nat.le_refl _)⟩

/-- C2.  For each script's (pattern, replacement) pair and every document,
applying the substitution twice yields the same result as applying it once:
the second application finds zero matches and returns the first application's
output unchanged. -/
theorem c2_idempotent :
    (∀ s, reSub adminPat adminRepl (reSub adminPat adminRepl s).1 =
        ((reSub adminPat adminRepl s).1, 0)) ∧
    (∀ s, reSub queryPat queryRepl (reSub queryPat queryRepl s).1 =
        ((reSub queryPat queryRepl s).1, 0)) ∧
    (∀ s, reSub consensusPat consensusRepl (reSub consensusPat consensusRepl s).1 =
        ((reSub consensusPat consensusRepl s).1, 0)) :=
  ⟨reSub_idem adminOK, reSub_idem queryOK, reSub_idem consensusOK⟩

/-- C3, counterexample.  The claim says the printed status message
distinguishes "patched N occurrences" from "no occurrences found" (printed
output depending on the match count).  It does not: `fix_admin_type.py`
prints the same single fixed message on a document it patches once
(Scenario 1's document) and on a document with zero matches. -/
theorem c3_counterexample :
    (reSub adminPat adminRepl scenario1Doc).2 = 1 ∧
    (reSub adminPat adminRepl ("hello".data)).2 = 0 ∧
    (adminRun ⟨some scenario1Doc, true⟩).stdout =
      (adminRun ⟨some ("hello".data), true⟩).stdout := by
  refine ⟨?_, ?_, rfl⟩
  · decide
  · decide

/-- C3, amended.  Each script prints one fixed success message whenever the
read and write succeed; the printed output does not depend on the match count
and does not distinguish "patched N occurrences" from "no occurrences found". -/
theorem c3_fixed_message :
    (∀ c, (adminRun ⟨some c, true⟩).stdout = [adminMsg]) ∧
    (∀ c, (queryRun ⟨some c, true⟩).stdout = [queryMsg]) ∧
    (∀ c, (consensusRun ⟨some c, true⟩).stdout = [consensusMsg]) :=
  ⟨fun _ => rfl, fun _ => rfl, fun _ => rfl⟩

/-- C4.  No persisted state is modified before the in-memory transform
completes: when the read fails the file state is untouched (nothing is ever
written), and a run whose pattern matches zero times leaves the persisted
content equal to the original (the substitution itself is a total function
and cannot fail). -/
theorem c4_no_partial_write :
    ((∀ w, (adminRun ⟨none, w⟩).fs = ⟨none, w⟩ ∧ (adminRun ⟨none, w⟩).wrote = false) ∧
      ∀ c, (reSub adminPat adminRepl c).2 = 0 →
        (adminRun ⟨some c, true⟩).fs.content? = some c) ∧
    ((∀ w, (queryRun ⟨none, w⟩).fs = ⟨none, w⟩ ∧ (queryRun ⟨none, w⟩).wrote = false) ∧
      ∀ c, (reSub queryPat queryRepl c).2 = 0 →
        (queryRun ⟨some c, true⟩).fs.content? = some c) ∧
    ((∀ w, (consensusRun ⟨none, w⟩).fs = ⟨none, w⟩ ∧
        (consensusRun ⟨none, w⟩).wrote = false) ∧
      ∀ c, (reSub consensusPat consensusRepl c).2 = 0 →
        (consensusRun ⟨some c, true⟩).fs.content? = some c) := by
  refine ⟨⟨fun w => ⟨rfl, rfl⟩, fun c h => ?_⟩,
    ⟨fun w => ⟨rfl, rfl⟩, fun c h => ?_⟩,
    ⟨fun w => ⟨rfl, rfl⟩, fun c h => ?_⟩⟩
  · exact congrArg some (reSub_count_zero adminOK c.length c (Nat.le_refl _) h)
  · exact congrArg some (reSub_count_zero queryOK c.length c (Nat.le_refl _) h)
  · exact congrArg some (reSub_count_zero consensusOK c.length c (Nat.le_refl _) h)

/-- Witness for C4 at a concrete zero-match document. -/
theorem c4_no_partial_write_witness :
    ((reSub adminPat adminRepl ("hello".data)).2 = 0 ∧
      (adminRun ⟨some ("hello".data), true⟩).fs.content? = some ("hello".data)) ∧
    ((reSub queryPat queryRepl ("hello".data)).2 = 0 ∧
      (queryRun ⟨some ("hello".data), true⟩).fs.content? = some ("hello".data)) ∧
    ((reSub consensusPat consensusRepl ("hello".data)).2 = 0 ∧
      (consensusRun ⟨some ("hello".data), true⟩).fs.content? = some ("hello".data)) :=
  ⟨⟨by decide, c4_no_partial_write.1.2 _ (by decide)⟩,
   ⟨by decide, c4_no_partial_write.2.1.2 _ (by decide)⟩,
   ⟨by decide, c4_no_partial_write.2.2.2 _ (by decide)⟩⟩

set_option maxRecDepth 400000 in
/-- C5.  On Scenario 1's document, `fix_admin_type.py`'s substitution performs
exactly one replacement, and the result contains the fields in order
`id, name, email, adminNotes, adminLabels, adminUpdatedAt, profile?`. -/
theorem c5_scenario1 :
    (reSub adminPat adminRepl scenario1Doc).2 = 1 ∧
    seqContains (reSub adminPat adminRepl scenario1Doc).1
      [("id:".data), ("name:".data), ("email:".data), ("adminNotes:".data),
       ("adminLabels:".data), ("adminUpdatedAt:".data), ("profile?:".data)] = true := by
  decide

set_option maxRecDepth 400000 in
/-- C6.  On a document containing the targeted `include` block,
`fix_query.py`'s substitution performs exactly one replacement, and the result
contains `select:` and no longer contains `include:`. -/
theorem c6_scenario2 :
    (reSub queryPat queryRepl scenario2Doc).2 = 1 ∧
    hasOcc ("select:".data) (reSub queryPat queryRepl scenario2Doc).1 = true ∧
    hasOcc ("include:".data) (reSub queryPat queryRepl scenario2Doc).1 = false := by
  decide

/-- C7.  Whitespace tolerance: any two fragments built from a script pattern's
fixed literals by inserting arbitrary (possibly empty, possibly multi-line)
whitespace runs between them are matched alike — indeed both are matched in
full, whatever whitespace was chosen. -/
theorem c7_whitespace_tolerance :
    (∀ v w : List (List Char),
      (∀ x ∈ v, ∀ ch ∈ x, isPySpace ch = true) →
      (∀ x ∈ w, ∀ ch ∈ x, isPySpace ch = true) →
      (((matchToksBT adminPat (altFrag adminLits v)).isSome ↔
          (matchToksBT adminPat (altFrag adminLits w)).isSome) ∧
        matchToksBT adminPat (altFrag adminLits v) = some [] ∧
        matchToksBT adminPat (altFrag adminLits w) = some [])) ∧
    (∀ v w : List (List Char),
      (∀ x ∈ v, ∀ ch ∈ x, isPySpace ch = true) →
      (∀ x ∈ w, ∀ ch ∈ x, isPySpace ch = true) →
      (((matchToksBT queryPat (altFrag queryLits v)).isSome ↔
          (matchToksBT queryPat (altFrag queryLits w)).isSome) ∧
        matchToksBT queryPat (altFrag queryLits v) = some [] ∧
        matchToksBT queryPat (altFrag queryLits w) = some [])) ∧
    (∀ v w : List (List Char),
      (∀ x ∈ v, ∀ ch ∈ x, isPySpace ch = true) →
      (∀ x ∈ w, ∀ ch ∈ x, isPySpace ch = true) →
      (((matchToksBT consensusPat (altFrag consensusLits v)).isSome ↔
          (matchToksBT consensusPat (altFrag consensusLits w)).isSome) ∧
        matchToksBT consensusPat (altFrag consensusLits v) = some [] ∧
        matchToksBT consensusPat (altFrag consensusLits w) = some [])) := by
  refine ⟨fun v w hv hw => ?_, fun v w hv hw => ?_, fun v w hv hw => ?_⟩
  · have h1 := bt_altFrag adminLits (by decide) (by decide) v hv
    have h2 := bt_altFrag adminLits (by decide) (by decide) w hw
    rw [← adminPat_alt] at h1 h2
    exact ⟨by rw [h1, h2], h1, h2⟩
  · have h1 := bt_altFrag queryLits (by decide) (by decide) v hv
    have h2 := bt_altFrag queryLits (by decide) (by decide) w hw
    rw [← queryPat_alt] at h1 h2
    exact ⟨by rw [h1, h2], h1, h2⟩
  · have h1 := bt_altFrag consensusLits (by decide) (by decide) v hv
    have h2 := bt_altFrag consensusLits (by decide) (by decide) w hw
    rw [← consensusPat_alt] at h1 h2
    exact ⟨by rw [h1, h2], h1, h2⟩

/-- Witness for C7 at concrete whitespace choices (one multi-line, one with no
whitespace at all). -/
theorem c7_whitespace_tolerance_witness :
    (∀ x ∈ [(" ".data), ("\n".data), ("\t\n".data), ("  ".data)],
      ∀ ch ∈ x, isPySpace ch = true) ∧
    (∀ x ∈ ([] : List (List Char)), ∀ ch ∈ x, isPySpace ch = true) ∧
    (matchToksBT adminPat
        (altFrag adminLits [(" ".data), ("\n".data), ("\t\n".data), ("  ".data)]) =
      some [] ∧
     matchToksBT adminPat (altFrag adminLits []) = some []) :=
  ⟨by decide, by decide,
   (c7_whitespace_tolerance.1 [(" ".data), ("\n".data), ("\t\n".data), ("  ".data)] []
      (by decide) (by decide)).2⟩

/-- C8.  Exit behavior: each script exits with status zero on successful
completion regardless of the match count (zero matches is not an error), and
with a nonzero status when the target file cannot be read or written. -/
theorem c8_exit_codes :
    ((∀ c, (adminRun ⟨some c, true⟩).exitCode = 0) ∧
      (∀ w, (adminRun ⟨none, w⟩).exitCode = 1) ∧
      (∀ c, (adminRun ⟨some c, false⟩).exitCode = 1)) ∧
    ((∀ c, (queryRun ⟨some c, true⟩).exitCode = 0) ∧
      (∀ w, (queryRun ⟨none, w⟩).exitCode = 1) ∧
      (∀ c, (queryRun ⟨some c, false⟩).exitCode = 1)) ∧
    ((∀ c, (consensusRun ⟨some c, true⟩).exitCode = 0) ∧
      (∀ w, (consensusRun ⟨none, w⟩).exitCode = 1) ∧
      (∀ c, (consensusRun ⟨some c, false⟩).exitCode = 1)) :=
  ⟨⟨fun _ => rfl, fun _ => rfl, fun _ => rfl⟩,
   ⟨fun _ => rfl, fun _ => rfl, fun _ => rfl⟩,
   ⟨fun _ => rfl, fun _ => rfl, fun _ => rfl⟩⟩

/-- C9.  No-op on non-match: for every document in which the pattern has no
match at any position, the substitution returns the document unchanged
byte-for-byte with a match count of 0. -/
theorem c9_noop_on_nonmatch :
    (∀ s, noMatchB adminPat s = true → reSub adminPat adminRepl s = (s, 0)) ∧
    (∀ s, noMatchB queryPat s = true → reSub queryPat queryRepl s = (s, 0)) ∧
    (∀ s, noMatchB consensusPat s = true →
      reSub consensusPat consensusRepl s = (s, 0)) :=
  ⟨fun _ h => reSub_noMatchB adminOK h,
   fun _ h => reSub_noMatchB queryOK h,
   fun _ h => reSub_noMatchB consensusOK h⟩

/-- Witness for C9 at a concrete matchless document. -/
theorem c9_noop_on_nonmatch_witness :
    (noMatchB adminPat ("hello".data) = true ∧
      reSub adminPat adminRepl ("hello".data) = (("hello".data), 0)) ∧
    (noMatchB queryPat ("hello".data) = true ∧
      reSub queryPat queryRepl ("hello".data) = (("hello".data), 0)) ∧
    (noMatchB consensusPat ("hello".data) = true ∧
      reSub consensusPat consensusRepl ("hello".data) = (("hello".data), 0)) :=
  ⟨⟨by decide, c9_noop_on_nonmatch.1 _ (by decide)⟩,
   ⟨by decide, c9_noop_on_nonmatch.2.1 _ (by decide)⟩,
   ⟨by decide, c9_noop_on_nonmatch.2.2 _ (by decide)⟩⟩

/-- C10.  On every run whose read succeeds (and whose write is permitted),
each script unconditionally opens the file for writing and writes the
transformed content: the persisted content always equals the substitution
applied to the initial content, and a zero-match run rewrites the file with
byte-identical content rather than skipping the write. -/
theorem c10_always_writes :
    ((∀ c, (adminRun ⟨some c, true⟩).wrote = true ∧
        (adminRun ⟨some c, true⟩).fs.content? = some (reSub adminPat adminRepl c).1) ∧
      (∀ c, (reSub adminPat adminRepl c).2 = 0 →
        (adminRun ⟨some c, true⟩).wrote = true ∧
        (adminRun ⟨some c, true⟩).fs.content? = some c)) ∧
    ((∀ c, (queryRun ⟨some c, true⟩).wrote = true ∧
        (queryRun ⟨some c, true⟩).fs.content? = some (reSub queryPat queryRepl c).1) ∧
      (∀ c, (reSub queryPat queryRepl c).2 = 0 →
        (queryRun ⟨some c, true⟩).wrote = true ∧
        (queryRun ⟨some c, true⟩).fs.content? = some c)) ∧
    ((∀ c, (consensusRun ⟨some c, true⟩).wrote = true ∧
        (consensusRun ⟨some c, true⟩).fs.content? =
          some (reSub consensusPat consensusRepl c).1) ∧
      (∀ c, (reSub consensusPat consensusRepl c).2 = 0 →
        (consensusRun ⟨some c, true⟩).wrote = true ∧
        (consensusRun ⟨some c, true⟩).fs.content? = some c)) := by
  refine ⟨⟨fun c => ⟨rfl, rfl⟩, fun c h => ⟨rfl, ?_⟩⟩,
    ⟨fun c => ⟨rfl, rfl⟩, fun c h => ⟨rfl, ?_⟩⟩,
    ⟨fun c => ⟨rfl, rfl⟩, fun c h => ⟨rfl, ?_⟩⟩⟩
  · exact congrArg some (reSub_count_zero adminOK c.length c (Nat.le_refl _) h)
  · exact congrArg some (reSub_count_zero queryOK c.length c (Nat.le_refl _) h)
  · exact congrArg some (reSub_count_zero consensusOK c.length c (Nat.le_refl _) h)

/-- Witness for C10 at a concrete zero-match document. -/
theorem c10_always_writes_witness :
    ((reSub adminPat adminRepl ("hello".data)).2 = 0 ∧
      (adminRun ⟨some ("hello".data), true⟩).wrote = true ∧
      (adminRun ⟨some ("hello".data), true⟩).fs.content? = some ("hello".data)) ∧
    ((reSub queryPat queryRepl ("hello".data)).2 = 0 ∧
      (queryRun ⟨some ("hello".data), true⟩).wrote = true ∧
      (queryRun ⟨some ("hello".data), true⟩).fs.content? = some ("hello".data)) ∧
    ((reSub consensusPat consensusRepl ("hello".data)).2 = 0 ∧
      (consensusRun ⟨some ("hello".data), true⟩).wrote = true ∧
      (consensusRun ⟨some ("hello".data), true⟩).fs.content? = some ("hello".data)) :=
  ⟨⟨by decide, c10_always_writes.1.2 _ (by decide)⟩,
   ⟨by decide, c10_always_writes.2.1.2 _ (by decide)⟩,
   ⟨by decide, c10_always_writes.2.2.2 _ (by decide)⟩⟩
